import Mathlib

/-!
# Verification of the disaggregation calculator core

Shallow embedding, in Lean 4 over exact rational arithmetic, of the core
functions of `openquake/calculators/disaggregation.py`:

* `agg_probs` — complementary probability composition
  `1 - (1 - P1) * ... * (1 - Pn)`;
* the per-key accumulation step of `DisaggregationCalculator.agg_result`;
* `_to_matrix` — densification of a `trti -> matrix` mapping into a
  TRT-stacked tensor;
* `_check_curve` and `DisaggregationCalculator.check_poes_disagg` —
  feasibility validation of the requested disaggregation probabilities;
* the `mag_edges` computation of `full_disaggregation`;
* `numpy.interp`-style interpolation as used by `_iml2s`;
* the matrix-size guard of `save_bin_edges`;
* the input-selection and `poe_agg` sanity check of `_save_result`.

NumPy floating-point arrays are modelled over `ℚ` (element-wise functions
`ι → ℚ` or lists of values); Python dictionaries keyed by small integers are
modelled as association lists.
-/

namespace Disagg

/-- Complementary probability composition, embedding `agg_probs(*probs)`:
`acc = 1 - probs[0]; for prob in probs[1:]: acc *= 1 - prob; return 1 - acc`.
The Python function is variadic and requires at least one argument, so the
first probability is a separate parameter. -/
def agg_probs (p : ℚ) (ps : List ℚ) : ℚ :=
  1 - ps.foldl (fun acc prob => acc * (1 - prob)) (1 - p)

/-- Binary case `agg_probs(a, b)`. -/
def agg2 (a b : ℚ) : ℚ := agg_probs a [b]

/-- Element-wise `agg_probs` on same-shaped matrices, modelled as functions
from an index type `ι` to `ℚ` (NumPy broadcasts the arithmetic of
`agg_probs` element-wise over arrays). -/
def agg2M {ι : Type*} (A B : ι → ℚ) : ι → ℚ := fun i => agg2 (A i) (B i)

/-- The per-`(key, trti)` accumulation step of `agg_result`:
`acc[key][trti] = agg_probs(acc[key].get(trti, 0), val)`; `old = none`
models an absent entry, for which `dict.get` returns the default `0`. -/
def accUpdate (old : Option ℚ) (val : ℚ) : ℚ := agg2 (old.getD 0) val

theorem agg2_eval (a b : ℚ) : agg2 a b = 1 - (1 - a) * (1 - b) := by
  simp [agg2, agg_probs]

theorem agg2_comm (a b : ℚ) : agg2 a b = agg2 b a := by
  simp only [agg2_eval]; ring

theorem agg2_assoc (a b c : ℚ) : agg2 (agg2 a b) c = agg2 a (agg2 b c) := by
  simp only [agg2_eval]; ring

/-- `agg2` is right-commutative, hence folds over it are permutation
invariant. -/
theorem agg2_right_comm (z x y : ℚ) :
    agg2 (agg2 z x) y = agg2 (agg2 z y) x := by
  simp only [agg2_eval]; ring

/-- **C1.** `agg_probs` is commutative and associative (as a binary
composition, both on scalar probabilities and element-wise on same-shaped
matrices), and consequently the per-`(key, trti)` accumulation performed by
`agg_result` — a fold of `agg_probs` over the incoming task values, starting
from the default `0` — yields the same result for any arrival order of the
task results. -/
theorem agg_probs_comm_assoc_order_independent {ι : Type*}
    (A B C : ℚ) (MA MB MC : ι → ℚ) (l₁ l₂ : List ℚ) (hperm : l₁.Perm l₂) :
    agg2 A B = agg2 B A ∧
    agg2 (agg2 A B) C = agg2 A (agg2 B C) ∧
    agg2M MA MB = agg2M MB MA ∧
    agg2M (agg2M MA MB) MC = agg2M MA (agg2M MB MC) ∧
    l₁.foldl agg2 0 = l₂.foldl agg2 0 := by
  refine ⟨agg2_comm A B, agg2_assoc A B C, ?_, ?_, ?_⟩
  · funext i; exact agg2_comm (MA i) (MB i)
  · funext i; exact agg2_assoc (MA i) (MB i) (MC i)
  · exact hperm.foldl_eq' (fun x _ y _ z => agg2_right_comm z x y) 0

/-- Witness for C1 at concrete inputs: the permutation hypothesis is
discharged on the two-element lists `[1/2, 1/3]` and `[1/3, 1/2]`. -/
theorem agg_probs_comm_assoc_order_independent_witness :
    agg2 (1/2) (1/3) = agg2 (1/3) (1/2) ∧
    ([(1:ℚ)/2, 1/3].foldl agg2 0 = [(1:ℚ)/3, 1/2].foldl agg2 0) := by
  have h := agg_probs_comm_assoc_order_independent (ι := Unit)
    (1/2) (1/3) (1/4) (fun _ => 0) (fun _ => 0) (fun _ => 0)
    [(1:ℚ)/2, 1/3] [(1:ℚ)/3, 1/2] (List.Perm.swap (1/3) (1/2) [])
  exact ⟨h.1, h.2.2.2.2⟩

/-- **C9.** `agg_probs` applied to a single operand is the identity,
`agg_probs(0, P) = P`, and hence the first value accumulated for a given
`(key, trti)` in `agg_result` (where `acc[key].get(trti, 0)` returns the
default `0`) is stored unchanged. -/
theorem agg_probs_identity (P : ℚ) :
    agg_probs P [] = P ∧ agg2 0 P = P ∧ accUpdate none P = P := by
  refine ⟨?_, ?_, ?_⟩
  · simp [agg_probs]
  · simp [agg2_eval]
  · simp [accUpdate, agg2_eval]

/-! ## `_to_matrix`: densification of a `trti -> matrix` mapping

```
trti = next(iter(matrices))
mat = numpy.zeros((num_trts,) + matrices[trti].shape)
for trti in matrices:
    mat[trti] = matrices[trti]
return mat
```

The dictionary is modelled as an association list with distinct keys; a
matrix is an opaque element of a type with a zero (the `numpy.zeros`
initial value). The output has first axis TRT, modelled as a function from
the TRT index; `num_trts` fixes its intended extent. -/

/-- One iteration of the `for trti in matrices: mat[trti] = matrices[trti]`
loop: assign slice `p.1` of the tensor to `p.2`. -/
def writeSlice {M : Type*} (mat : ℕ → M) (p : ℕ × M) : ℕ → M :=
  fun t => if t = p.1 then p.2 else mat t

/-- Embedding of `_to_matrix`: start from the zero tensor and assign the
slice at each key present in the mapping. (`num_trts` only fixes the shape
of the zero tensor, so it does not occur in the function body.) -/
def to_matrix {M : Type*} [Zero M] (matrices : List (ℕ × M)) : ℕ → M :=
  matrices.foldl writeSlice (fun _ => 0)

theorem foldl_writeSlice_absent {M : Type*} (l : List (ℕ × M))
    (init : ℕ → M) (t : ℕ) (habs : ∀ p ∈ l, p.1 ≠ t) :
    l.foldl writeSlice init t = init t := by
  induction l generalizing init with
  | nil => rfl
  | cons p rest ih =>
    have hp : p.1 ≠ t := habs p (List.mem_cons_self p rest)
    rw [List.foldl_cons,
      ih (writeSlice init p) (fun q hq => habs q (List.mem_cons_of_mem p hq))]
    simp [writeSlice, if_neg (Ne.symm hp)]

theorem foldl_writeSlice_present {M : Type*} (l : List (ℕ × M))
    (init : ℕ → M) (t : ℕ) (m : M) (hnodup : (l.map Prod.fst).Nodup)
    (hmem : (t, m) ∈ l) : l.foldl writeSlice init t = m := by
  induction l generalizing init with
  | nil => cases hmem
  | cons p rest ih =>
    simp only [List.map_cons, List.nodup_cons] at hnodup
    rw [List.foldl_cons]
    rcases List.mem_cons.1 hmem with h | h
    · -- head write: no later pair touches key `t`
      have hrest : ∀ q ∈ rest, q.1 ≠ t := by
        intro q hq hqt
        apply hnodup.1
        have hpt : p.1 = t := by rw [← h]
        rw [hpt, ← hqt]
        exact List.mem_map_of_mem Prod.fst hq
      rw [foldl_writeSlice_absent rest (writeSlice init p) t hrest]
      simp [writeSlice, ← h]
    · exact ih (writeSlice init p) hnodup.2 h

theorem to_matrix_present {M : Type*} [Zero M] (matrices : List (ℕ × M))
    (hnodup : (matrices.map Prod.fst).Nodup) (t : ℕ) (m : M)
    (hmem : (t, m) ∈ matrices) : to_matrix matrices t = m :=
  foldl_writeSlice_present matrices (fun _ => 0) t m hnodup hmem

theorem to_matrix_absent {M : Type*} [Zero M] (matrices : List (ℕ × M))
    (t : ℕ) (habs : ∀ p ∈ matrices, p.1 ≠ t) : to_matrix matrices t = 0 :=
  foldl_writeSlice_absent matrices (fun _ => 0) t habs

/-- **C6.** Densifying a non-empty `trti -> matrix` mapping with distinct
keys `< T` yields a TRT-stacked tensor whose slice at every key present in
the mapping is exactly that key's matrix (matrices with different TRT
indices are never combined), and whose slice at every absent TRT index
`< T` is the zero matrix. -/
theorem to_matrix_densifies {M : Type*} [Zero M] (matrices : List (ℕ × M))
    (T : ℕ) (_hne : matrices ≠ [])
    (hnodup : (matrices.map Prod.fst).Nodup)
    (_hlt : ∀ p ∈ matrices, p.1 < T) :
    (∀ p ∈ matrices, to_matrix matrices p.1 = p.2) ∧
    (∀ t < T, (∀ p ∈ matrices, p.1 ≠ t) → to_matrix matrices t = 0) := by
  refine ⟨fun p hp => to_matrix_present matrices hnodup p.1 p.2 hp,
    fun t _ habs => to_matrix_absent matrices t habs⟩

/-- Witness for C6: mapping `{0 ↦ 5, 2 ↦ 7}` with `T = 3`; slice 0 is `5`,
slice 2 is `7`, and the absent slice 1 is `0`. -/
theorem to_matrix_densifies_witness :
    to_matrix [(0, (5:ℚ)), (2, 7)] 0 = 5 ∧
    to_matrix [(0, (5:ℚ)), (2, 7)] 2 = 7 ∧
    to_matrix [(0, (5:ℚ)), (2, 7)] 1 = 0 := by
  have h := to_matrix_densifies [(0, (5:ℚ)), (2, 7)] 3 (by decide)
    (by decide) (by decide)
  exact ⟨h.1 (0, 5) (by decide), h.1 (2, 7) (by decide),
    h.2 1 (by decide) (by decide)⟩

/-! ## `_check_curve` and `check_poes_disagg`: feasibility validation

```
def _check_curve(sid, rlz, curve, imtls, poes_disagg):
    bad = 0
    for imt in imtls:
        max_poe = curve[imt].max()
        for poe in poes_disagg:
            if poe > max_poe:
                logging.warning(POE_TOO_BIG, sid, poe, max_poe, rlz, imt)
                bad += 1
    return bool(bad)
```

A hazard curve is modelled as the list of its per-IMT probability arrays,
in the iteration order of `imtls` (only `curve[imt]` is read per IMT); the
curve list for all sites is indexed by `sid`, `none` standing for a site
whose `get_curve` returned `None`. `sid`, `rlz` only feed the log message
and are omitted. -/

/-- `numpy` `.max()` of a (non-empty, in all Python uses) array. -/
def listMax (l : List ℚ) : ℚ :=
  match l with
  | [] => 0
  | h :: t => t.foldl max h

/-- Embedding of `_check_curve`: count the `(imt, poe)` pairs with
`poe > max_poe` and return whether the count is non-zero (`bool(bad)`). -/
def _check_curve (curve : List (List ℚ)) (poes_disagg : List ℚ) : Bool :=
  decide (0 <
    (curve.map (fun cs => poes_disagg.countP
      (fun poe => decide (listMax cs < poe)))).sum)

/-- The `ok_sites` list built by `check_poes_disagg`: a site with no curve
is appended unconditionally; a site with a curve is appended when
`_check_curve` reports no bad pair. -/
def ok_sites (curves : List (Option (List (List ℚ)))) (poes : List ℚ) :
    List ℕ :=
  (List.range curves.length).filter (fun sid =>
    match curves.getD sid none with
    | none => true
    | some c => ! _check_curve c poes)

/-- Embedding of `check_poes_disagg`: raises (`SystemExit`) when `ok_sites`
is empty, otherwise returns `ok_sites`. -/
def check_poes_disagg (curves : List (Option (List (List ℚ))))
    (poes : List ℚ) : Except String (List ℕ) :=
  if ok_sites curves poes = [] then
    Except.error "Cannot do any disaggregation"
  else Except.ok (ok_sites curves poes)

/-- Whether an `Except` result is the error case (a raised exception). -/
def isErr {ε α : Type*} : Except ε α → Bool
  | Except.error _ => true
  | Except.ok _ => false

theorem natSum_pos_iff (l : List ℕ) : 0 < l.sum ↔ ∃ x ∈ l, 0 < x := by
  induction l with
  | nil => simp
  | cons a t ih =>
    simp only [List.sum_cons, List.mem_cons]
    constructor
    · intro h
      by_cases ha : 0 < a
      · exact ⟨a, Or.inl rfl, ha⟩
      · have : 0 < t.sum := by omega
        rcases ih.1 this with ⟨x, hx, hxp⟩
        exact ⟨x, Or.inr hx, hxp⟩
    · rintro ⟨x, hx | hx, hxp⟩
      · subst hx; omega
      · have := ih.2 ⟨x, hx, hxp⟩; omega

theorem check_curve_iff (curve : List (List ℚ)) (poes : List ℚ) :
    _check_curve curve poes = true ↔
      ∃ cs ∈ curve, ∃ p ∈ poes, listMax cs < p := by
  simp only [_check_curve, decide_eq_true_eq, natSum_pos_iff]
  constructor
  · intro hpos
    rcases hpos with ⟨x, hx, hxp⟩
    rcases List.mem_map.1 hx with ⟨cs, hcs, rfl⟩
    rcases List.countP_pos_iff.1 hxp with ⟨p, hp, hlt⟩
    exact ⟨cs, hcs, p, hp, of_decide_eq_true hlt⟩
  · rintro ⟨cs, hcs, p, hp, hlt⟩
    refine ⟨poes.countP (fun poe => decide (listMax cs < poe)), ?_, ?_⟩
    · exact List.mem_map_of_mem
        (fun cs => poes.countP (fun poe => decide (listMax cs < poe))) hcs
    · exact List.countP_pos_iff.2 ⟨p, hp, decide_eq_true hlt⟩

/-- **C3.** `check_poes_disagg` flags a site with a hazard curve as not ok
exactly when some requested probability strictly exceeds the maximum
probability of the site's curve for some IMT, and the run fails fatally
(raising "Cannot do any disaggregation") if and only if the resulting
ok-site list is empty. -/
theorem check_poes_disagg_flags (curves : List (Option (List (List ℚ))))
    (poes : List ℚ) (sid : ℕ) (c : List (List ℚ))
    (hsid : curves.getD sid none = some c) (hlen : sid < curves.length) :
    (sid ∉ ok_sites curves poes ↔ ∃ cs ∈ c, ∃ p ∈ poes, listMax cs < p) ∧
    (isErr (check_poes_disagg curves poes) = true ↔
      ok_sites curves poes = []) := by
  constructor
  · rw [← check_curve_iff c poes]
    simp only [ok_sites, List.mem_filter, List.mem_range, hsid]
    constructor
    · intro hnot
      by_contra hfalse
      exact hnot ⟨hlen, by simp [hsid, hfalse]⟩
    · intro hbad hmem
      simp [hbad] at hmem
  · unfold check_poes_disagg
    by_cases h : ok_sites curves poes = [] <;> simp [h, isErr]

/-- Witness for C3: two sites with `poes_disagg = [1/50]`; site 0's curve
tops out at `1/200 < 1/50` so it is flagged not ok, site 1's curve reaches
`1/10` so it is ok, hence the run does not fail. -/
theorem check_poes_disagg_flags_witness :
    (0 ∉ ok_sites [some [[1/200]], some [[1/10]]] [1/50]) ∧
    isErr (check_poes_disagg [some [[1/200]], some [[1/10]]] [1/50])
      = false := by
  have h := check_poes_disagg_flags [some [[1/200]], some [[1/10]]] [1/50]
    0 [[1/200]] rfl (by norm_num)
  constructor
  · exact h.1.mpr ⟨[1/200], by simp, 1/50, by simp, by norm_num [listMax]⟩
  · have h2 := check_poes_disagg_flags [some [[1/200]], some [[1/10]]]
      [1/50] 1 [[1/10]] rfl (by norm_num)
    have hok : 1 ∈ ok_sites [some [[1/200]], some [[1/10]]] [1/50] := by
      by_contra hno
      rcases h2.1.mp hno with ⟨cs, hcs, p, hp, hlt⟩
      simp only [List.mem_singleton] at hcs hp
      rw [hcs, hp] at hlt
      norm_num [listMax] at hlt
    rcases hb : isErr (check_poes_disagg [some [[1/200]], some [[1/10]]]
      [1/50]) with _ | _
    · rfl
    · have := h2.2.mp hb
      rw [this] at hok
      cases hok

/-- **C10.** A site whose hazard-curve lookup returned `None` is included
in the ok-site list by `check_poes_disagg` unconditionally — for every
choice of requested probabilities — and its presence alone prevents the
fatal run-level error. -/
theorem none_curve_site_always_ok (curves : List (Option (List (List ℚ))))
    (poes : List ℚ) (sid : ℕ) (hsid : curves.getD sid none = none)
    (hlen : sid < curves.length) :
    sid ∈ ok_sites curves poes ∧
    isErr (check_poes_disagg curves poes) = false := by
  have hmem : sid ∈ ok_sites curves poes := by
    simp only [ok_sites, List.mem_filter, List.mem_range]
    exact ⟨hlen, by rw [hsid]⟩
  refine ⟨hmem, ?_⟩
  have hne : ok_sites curves poes ≠ [] := by
    intro h; rw [h] at hmem; cases hmem
  simp [check_poes_disagg, if_neg hne, isErr]

/-- Witness for C10: site 0 is infeasible (curve max `1/200` below the
target `1/50`) but site 1 has no curve; site 1 is ok and the run does not
fail. -/
theorem none_curve_site_always_ok_witness :
    1 ∈ ok_sites [some [[1/200]], none] [1/50] ∧
    isErr (check_poes_disagg [some [[1/200]], none] [1/50]) = false :=
  none_curve_site_always_ok [some [[1/200]], none] [1/50] 1 rfl
    (by norm_num)

/-! ## `mag_edges` in `full_disaggregation`

```
mag_edges = oq.mag_bin_width * numpy.arange(
    int(numpy.floor(min_mag / oq.mag_bin_width)),
    int(numpy.ceil(max_mag / oq.mag_bin_width) + 1))
```
-/

/-- `numpy.arange(lo, hi)` on integer arguments: the integers
`lo, lo+1, ..., hi-1` (empty when `hi ≤ lo`). -/
def arange (lo hi : ℤ) : List ℤ :=
  (List.range (hi - lo).toNat).map (fun i : ℕ => lo + (i : ℤ))

/-- Embedding of the `mag_edges` computation: the bin width times
`arange(floor(min_mag/width), ceil(max_mag/width) + 1)`. -/
def mag_edges (w min_mag max_mag : ℚ) : List ℚ :=
  (arange ⌊min_mag / w⌋ (⌈max_mag / w⌉ + 1)).map (fun k : ℤ => w * (k : ℚ))

theorem arange_head? (lo hi : ℤ) (h : lo < hi) :
    (arange lo hi).head? = some lo := by
  obtain ⟨n, hn⟩ : ∃ n, (hi - lo).toNat = n + 1 :=
    ⟨(hi - lo).toNat - 1, by omega⟩
  rw [arange, hn, List.head?_map, List.range_succ_eq_map]
  simp

theorem arange_getLast? (lo hi : ℤ) (h : lo < hi) :
    (arange lo hi).getLast? = some (hi - 1) := by
  obtain ⟨n, hn⟩ : ∃ n, (hi - lo).toNat = n + 1 :=
    ⟨(hi - lo).toNat - 1, by omega⟩
  rw [arange, hn, List.getLast?_map, List.range_succ, List.getLast?_concat]
  have hcast : (n : ℤ) = hi - lo - 1 := by omega
  simp only [Option.map_some', hcast]
  congr 1
  ring

theorem arange_chain' (lo hi : ℤ) :
    List.Chain' (fun x y => y = x + 1) (arange lo hi) := by
  rw [arange, List.chain'_map]
  cases hn : (hi - lo).toNat with
  | zero => simp
  | succ n =>
    rw [List.chain'_range_succ]
    intro m _
    push_cast
    ring

/-- **C4.** For every positive bin width `w` and `min_mag ≤ max_mag`, the
computed `mag_edges` start at `w * ⌊min_mag/w⌋`, end at `w * ⌈max_mag/w⌉`,
consist of multiples of `w`, advance by exactly `w` at every step
(consecutive multiples), and form a strictly increasing sequence. -/
theorem mag_edges_spec (w min_mag max_mag : ℚ) (hw : 0 < w)
    (hab : min_mag ≤ max_mag) :
    (mag_edges w min_mag max_mag).head? = some (w * ⌊min_mag / w⌋) ∧
    (mag_edges w min_mag max_mag).getLast? = some (w * ⌈max_mag / w⌉) ∧
    (∀ x ∈ mag_edges w min_mag max_mag, ∃ k : ℤ, x = w * k) ∧
    List.Chain' (fun x y => y = x + w) (mag_edges w min_mag max_mag) ∧
    List.Chain' (· < ·) (mag_edges w min_mag max_mag) := by
  have hdiv : min_mag / w ≤ max_mag / w := by gcongr
  have hfc : ⌊min_mag / w⌋ ≤ ⌈max_mag / w⌉ :=
    le_trans (Int.floor_mono hdiv) (Int.floor_le_ceil _)
  have hlt : ⌊min_mag / w⌋ < ⌈max_mag / w⌉ + 1 := by omega
  have hspacing :
      List.Chain' (fun x y => y = x + w) (mag_edges w min_mag max_mag) := by
    rw [mag_edges, List.chain'_map]
    apply (arange_chain' _ _).imp
    intro a b hb
    rw [hb]
    push_cast
    ring
  refine ⟨?_, ?_, ?_, hspacing, ?_⟩
  · rw [mag_edges, List.head?_map, arange_head? _ _ hlt]
    rfl
  · rw [mag_edges, List.getLast?_map, arange_getLast? _ _ hlt]
    simp
  · intro x hx
    rcases List.mem_map.1 hx with ⟨k, _, rfl⟩
    exact ⟨k, rfl⟩
  · apply hspacing.imp
    intro a b hb
    rw [hb]
    exact lt_add_of_pos_right a hw

/-- Witness for C4 at the spec's example: `w = 0.2`, `min_mag = 5.0`,
`max_mag = 5.3` give the edges `[5.0, 5.2, 5.4]` (3 edges, 2 bins),
strictly increasing with first edge `0.2 * ⌊25⌋ = 5.0`. -/
theorem mag_edges_spec_witness :
    mag_edges (1/5) 5 (53/10) = [5, 26/5, 27/5] ∧
    (mag_edges (1/5) 5 (53/10)).head?
      = some ((1/5 : ℚ) * (⌊(5:ℚ) / (1/5)⌋ : ℚ)) ∧
    List.Chain' (· < ·) (mag_edges (1/5) 5 (53/10)) := by
  have h := mag_edges_spec (1/5) 5 (53/10) (by norm_num) (by norm_num)
  refine ⟨?_, h.1, h.2.2.2.2⟩
  have h1 : ⌊(5:ℚ) / (1/5)⌋ = 25 := by norm_num [Int.floor_eq_iff]
  have h2 : ⌈(53:ℚ)/10 / (1/5)⌉ = 27 := by norm_num [Int.ceil_eq_iff]
  have h3 : arange 25 (27 + 1) = [25, 26, 27] := by
    have : ((27:ℤ) + 1 - 25).toNat = 3 := rfl
    rw [arange, this]
    simp [List.range_succ]
  rw [mag_edges, h1, h2, h3]
  norm_num

/-! ## `_iml2s`: target intensity interpolation

```
poes = curve[imt][::-1]
imls = imtls[imt][::-1]
iml2[m] = numpy.interp(poes_disagg, poes, imls)
```

`numpy.interp(x, xp, fp)` assumes `xp` increasing, clamps to `fp[0]` below
`xp[0]` and to `fp[-1]` above `xp[-1]`, and interpolates linearly on each
interval `[xp[j], xp[j+1]]`. -/

/-- One-dimensional monotone linear interpolation over the paired sample
points `(xp, fp)` (zipped), assuming the `xp` components increase. -/
def np_interp (x : ℚ) : List (ℚ × ℚ) → ℚ
  | [] => 0
  | [(_, f0)] => f0
  | (x0, f0) :: (x1, f1) :: rest =>
    if x ≤ x0 then f0
    else if x ≤ x1 then f0 + (x - x0) / (x1 - x0) * (f1 - f0)
    else np_interp x ((x1, f1) :: rest)

/-- One row of the `iml2` matrix built by `_iml2s` for a site with a curve:
the intensity at each requested probability, interpolated over the
reversed poe/intensity arrays of the hazard curve for one IMT. -/
def iml2_row (curve_poes imls poes_disagg : List ℚ) : List ℚ :=
  poes_disagg.map (fun poe =>
    np_interp poe (curve_poes.reverse.zip imls.reverse))

/-- **C5.** For a two-point hazard curve with decreasing probabilities
`[p1, p2]` and intensities `[i1, i2]`, the target intensity that `_iml2s`
computes for a requested probability `t` with `p2 ≤ t ≤ p1` is the
monotone linear interpolation `i1 + (t - p1) / (p2 - p1) * (i2 - i1)` of
the reversed arrays at `t`. -/
theorem iml2_interpolates (p1 p2 i1 i2 t : ℚ) (hlt : p2 < p1)
    (hlo : p2 ≤ t) (hhi : t ≤ p1) :
    iml2_row [p1, p2] [i1, i2] [t]
      = [i1 + (t - p1) / (p2 - p1) * (i2 - i1)] := by
  simp only [iml2_row, List.map_cons, List.map_nil, List.reverse_cons,
    List.reverse_nil, List.nil_append, List.cons_append, List.zip_cons_cons,
    List.zip_nil_right]
  congr 1
  rw [np_interp]
  have hne : p1 - p2 ≠ 0 := by intro h; exact absurd (by linarith) hlt.not_le
  have hne' : p2 - p1 ≠ 0 := by intro h; apply hne; linarith
  by_cases h2 : t ≤ p2
  · have ht : t = p2 := le_antisymm h2 hlo
    rw [if_pos h2, ht]
    field_simp
  · rw [if_neg h2, if_pos hhi]
    field_simp
    ring

/-- Witness for C5 at the spec's example: curve `poes = [0.05, 0.01]`,
`imls = [0.1, 0.2]`, requested probability `0.02` gives intensity
`0.175 = 7/40`. -/
theorem iml2_interpolates_witness :
    iml2_row [5/100, 1/100] [1/10, 2/10] [2/100] = [7/40] := by
  rw [iml2_interpolates (5/100) (1/100) (1/10) (2/10) (2/100)
    (by norm_num) (by norm_num) (by norm_num)]
  norm_num

/-! ## `save_bin_edges`: the matrix-size guard

```
for sid in self.sitecol.sids:
    bins = disagg.get_bins(b, sid)
    shape = [len(bin) - 1 for bin in bins] + [len(self.trts)]
    matrix_size = numpy.prod(shape)
    if matrix_size > 1E7:
        raise ValueError(...)
self.datastore['disagg-bins/mags'] = b[0]
...
```
-/

/-- The bin-edge quintet `self.bin_edges`: global magnitude, distance and
epsilon edges, per-site longitude and latitude edges. -/
structure BinEdges where
  mags : List ℚ
  dists : List ℚ
  lons : ℕ → List ℚ
  lats : ℕ → List ℚ
  eps : List ℚ

/-- Modelled from the spec: `disagg.get_bins` lives in the external
`openquake.hazardlib.calc.disagg` module (not under `src/`); per §3 and
§4.1 of the spec, the bin edges of one site are the global mag/dist/eps
edges together with that site's lon/lat edges. -/
def get_bins (b : BinEdges) (sid : ℕ) : List (List ℚ) :=
  [b.mags, b.dists, b.lons sid, b.lats sid, b.eps]

/-- `numpy.prod(shape)` for `shape = [len(bin) - 1 for bin in bins] + [T]`:
the product of the per-axis bin counts, TRT axis included. -/
def matrix_size (b : BinEdges) (sid : ℕ) (T : ℕ) : ℤ :=
  (((get_bins b sid).map (fun bin => (bin.length : ℤ) - 1))
    ++ [(T : ℤ)]).prod

/-- Embedding of `save_bin_edges`: raise `ValueError` at the first site
whose matrix size exceeds `1E7`, otherwise store the global mag/dist
edges, the per-site lon/lat edges and the global eps edges. -/
def save_bin_edges (b : BinEdges) (sids : List ℕ) (T : ℕ) :
    Except String (List (String × List ℚ)) :=
  match sids.find? (fun sid => decide (matrix_size b sid T > 10000000)) with
  | some sid =>
      Except.error ("The disaggregation matrix for site #" ++ toString sid
        ++ " is too large: fix the binnning!")
  | none =>
      Except.ok ([("disagg-bins/mags", b.mags), ("disagg-bins/dists", b.dists)]
        ++ (sids.map (fun sid =>
              ("disagg-bins/lons/sid-" ++ toString sid, b.lons sid)))
        ++ (sids.map (fun sid =>
              ("disagg-bins/lats/sid-" ++ toString sid, b.lats sid)))
        ++ [("disagg-bins/eps", b.eps)])

/-- **C7.** `save_bin_edges` raises a configuration error if and only if
some site's bin-count product (TRT axis included) exceeds 10,000,000
cells; otherwise it completes and stores the global and per-site bin
edges. -/
theorem save_bin_edges_guard (b : BinEdges) (sids : List ℕ) (T : ℕ) :
    (isErr (save_bin_edges b sids T) = true ↔
      ∃ sid ∈ sids, 10000000 < matrix_size b sid T) ∧
    ((∀ sid ∈ sids, matrix_size b sid T ≤ 10000000) →
      save_bin_edges b sids T = Except.ok
        ([("disagg-bins/mags", b.mags), ("disagg-bins/dists", b.dists)]
          ++ (sids.map (fun sid =>
                ("disagg-bins/lons/sid-" ++ toString sid, b.lons sid)))
          ++ (sids.map (fun sid =>
                ("disagg-bins/lats/sid-" ++ toString sid, b.lats sid)))
          ++ [("disagg-bins/eps", b.eps)])) := by
  constructor
  · unfold save_bin_edges
    cases hfind : sids.find? (fun sid =>
        decide (matrix_size b sid T > 10000000)) with
    | none =>
      simp only [isErr]
      constructor
      · intro h; cases h
      · rintro ⟨sid, hmem, hgt⟩
        have := List.find?_eq_none.1 hfind sid hmem
        simp only [decide_eq_true_eq] at this
        exact absurd hgt this
    | some sid =>
      simp only [isErr, true_iff]
      have hmem := List.mem_of_find?_eq_some hfind
      have hp := List.find?_some hfind
      simp only [decide_eq_true_eq] at hp
      exact ⟨sid, hmem, hp⟩
  · intro hall
    unfold save_bin_edges
    cases hfind : sids.find? (fun sid =>
        decide (matrix_size b sid T > 10000000)) with
    | none => rfl
    | some sid =>
      have hmem := List.mem_of_find?_eq_some hfind
      have hp := List.find?_some hfind
      simp only [decide_eq_true_eq] at hp
      exact absurd hp (not_lt.2 (hall sid hmem))

/-- Witness for C7: a single site with two-edge bins passes the guard (its
matrix size is `20 ≤ 1E7` with `T = 20`), and the stored writes are
produced. -/
theorem save_bin_edges_guard_witness :
    save_bin_edges ⟨[0, 1], [0, 1], fun _ => [0, 1], fun _ => [0, 1],
        [0, 1]⟩ [0] 20
      = Except.ok
        [("disagg-bins/mags", [0, 1]), ("disagg-bins/dists", [0, 1]),
         ("disagg-bins/lons/sid-0", [0, 1]),
         ("disagg-bins/lats/sid-0", [0, 1]),
         ("disagg-bins/eps", [0, 1])] := by
  have h := (save_bin_edges_guard
    ⟨[0, 1], [0, 1], fun _ => [0, 1], fun _ => [0, 1], [0, 1]⟩ [0] 20).2
  rw [h]
  · rfl
  · intro sid hmem
    rcases List.mem_singleton.1 hmem with rfl
    norm_num [matrix_size, get_bins]

/-! ## `_save_result`: PMF input selection and the `poe_agg` sanity check

```
poe_agg = []
aggmatrix = agg_probs(*matrix)
for key, fn in disagg.pmf_map.items():
    if not disagg_outputs or key in disagg_outputs:
        pmf = fn(matrix if key.endswith('TRT') else aggmatrix)
        self.datastore[disp_name + key] = pmf
        poe_agg.append(1. - numpy.prod(1. - pmf))
...
if poe:
    attrs['poe'] = poe
    poe_agg = numpy.mean(attrs['poe_agg'])
    if abs(1 - poe_agg / poe) > .1:
        logging.warning(...)
```

The 6-dimensional tensor is modelled as the list of its TRT slices (the
first axis), each slice a function from a 5-dimensional index type `ι`.
Python string keys are modelled as `List Char` so that the suffix test
computes. -/

/-- `agg_probs(*matrix)`: unpack the TRT axis and compose the slices
element-wise, producing the 5-dimensional aggregated tensor. -/
def aggSlices {ι : Type*} (matrix : List (ι → ℚ)) : ι → ℚ :=
  match matrix with
  | [] => fun _ => 0
  | m :: ms => fun i => agg_probs (m i) (ms.map (fun s => s i))

/-- Embedding of `key.endswith('TRT')`. -/
def endsWithTRT (key : List Char) : Bool :=
  match key.reverse with
  | 'T' :: 'R' :: 'T' :: _ => true
  | _ => false

/-- The tensor handed to the PMF-extraction function `fn` for a given
key: `matrix if key.endswith('TRT') else aggmatrix`. The left summand is
the TRT-stacked 6-dimensional tensor, the right one the 5-dimensional
tensor already composed across TRT. -/
def pmfInput {ι : Type*} (key : List Char) (matrix : List (ι → ℚ)) :
    (List (ι → ℚ)) ⊕ (ι → ℚ) :=
  if endsWithTRT key then Sum.inl matrix else Sum.inr (aggSlices matrix)

theorem foldl_one_sub_mul (ps : List ℚ) (a : ℚ) :
    ps.foldl (fun acc prob => acc * (1 - prob)) a
      = a * (ps.map (fun x => 1 - x)).prod := by
  induction ps generalizing a with
  | nil => simp
  | cons p rest ih =>
    rw [List.foldl_cons, ih, List.map_cons, List.prod_cons]
    ring

/-- `agg_probs` equals the complement-of-product formula
`1 - ∏ (1 - Pi)`. -/
theorem agg_probs_eq_one_sub_prod (p : ℚ) (ps : List ℚ) :
    agg_probs p ps = 1 - ((p :: ps).map (fun x => 1 - x)).prod := by
  rw [agg_probs, foldl_one_sub_mul, List.map_cons, List.prod_cons]

/-- **C2 counterexample.** For the requested PMF kind `"Mag"` (which does
not end with `'TRT'`) and the concrete TRT-stacked tensor with two TRT
slices both constantly `1/10`, `_save_result` feeds the extraction
function the tensor composed across TRT — whose sole entry
`1 - (1 - 1/10)^2 = 19/100` differs from both TRT slices — so the TRT
axis *is* marginalized by complementary-probability composition for this
requested kind, contradicting the claim. -/
theorem pmfInput_trt_marginalized_counterexample :
    pmfInput "Mag".data [fun _ : Unit => (1:ℚ)/10, fun _ => 1/10]
      = Sum.inr (aggSlices [fun _ : Unit => (1:ℚ)/10, fun _ => 1/10]) ∧
    aggSlices [fun _ : Unit => (1:ℚ)/10, fun _ => 1/10] () = 19/100 ∧
    (19:ℚ)/100 ≠ 1/10 := by
  refine ⟨?_, ?_, by norm_num⟩
  · rw [pmfInput]
    have : endsWithTRT "Mag".data = false := by decide
    rw [this]
    simp
  · show agg_probs ((1:ℚ)/10) [1/10] = 19/100
    rw [agg_probs_eq_one_sub_prod]
    norm_num

/-- **C2 amended.** A PMF kind whose name ends with `'TRT'` is computed
from the TRT-stacked tensor directly (TRT slices kept separate); every
other requested kind is computed from the tensor whose TRT axis has first
been marginalized by complementary-probability composition, element-wise
`1 - ∏ over TRT slices of (1 - slice)`. -/
theorem pmfInput_spec {ι : Type*} (key : List Char) (m : ι → ℚ)
    (ms : List (ι → ℚ)) :
    (endsWithTRT key = true → pmfInput key (m :: ms) = Sum.inl (m :: ms)) ∧
    (endsWithTRT key = false →
      pmfInput key (m :: ms) = Sum.inr (fun i =>
        1 - (((m :: ms).map (fun s => s i)).map (fun x => 1 - x)).prod)) := by
  constructor
  · intro h
    rw [pmfInput, h]
    simp
  · intro h
    rw [pmfInput, h]
    simp only [Bool.false_eq_true, if_false]
    congr 1
    funext i
    show agg_probs (m i) (ms.map (fun s => s i)) = _
    rw [agg_probs_eq_one_sub_prod]
    simp [List.map_map, Function.comp]

/-- Witness for the amended C2: the kind `"TRT"` receives the stacked
tensor unchanged, the kind `"Mag"` receives the TRT-composed tensor. -/
theorem pmfInput_spec_witness :
    pmfInput "TRT".data [fun _ : Unit => (1:ℚ)/10, fun _ => 1/10]
      = Sum.inl [fun _ : Unit => (1:ℚ)/10, fun _ => 1/10] ∧
    pmfInput "Mag".data [fun _ : Unit => (1:ℚ)/10, fun _ => 1/10]
      = Sum.inr (fun i =>
          1 - (([fun _ : Unit => (1:ℚ)/10, fun _ => 1/10].map
            (fun s => s i)).map (fun x => 1 - x)).prod) := by
  constructor
  · exact (pmfInput_spec "TRT".data (fun _ : Unit => (1:ℚ)/10)
      [fun _ => 1/10]).1 (by decide)
  · exact (pmfInput_spec "Mag".data (fun _ : Unit => (1:ℚ)/10)
      [fun _ => 1/10]).2 (by decide)

/-- `poe_agg.append(1. - numpy.prod(1. - pmf))`: the aggregate probability
derived from one PMF. -/
def poe_agg_of (pmf : List ℚ) : ℚ := 1 - (pmf.map (fun x => 1 - x)).prod

/-- `numpy.mean` of a list. -/
def listMean (l : List ℚ) : ℚ := l.sum / l.length

/-- The deviation check of `_save_result`: under `if poe:` (false for
`None` and for `0`), warn when `abs(1 - mean(poe_agg) / poe) > .1`. The
check only ever logs a warning — its result is a `Bool`, raising
nothing. -/
def deviation_warning (poe_aggs : List ℚ) (poe : Option ℚ) : Bool :=
  match poe with
  | none => false
  | some p =>
    if p = 0 then false
    else decide (|1 - listMean poe_aggs / p| > 1/10)

/-- **C8.** When a non-zero target probability was requested, the
per-PMF aggregate probabilities are `1 - ∏(1 - pmf)`, and the
(non-fatal) deviation warning fires exactly when the relative deviation
of the aggregate from the requested probability exceeds 10%; when no
probability was requested, no warning fires. -/
theorem poe_agg_deviation_warning (pmfs : List (List ℚ)) (p : ℚ)
    (hp : p ≠ 0) :
    (deviation_warning (pmfs.map poe_agg_of) (some p) = true ↔
      |1 - listMean (pmfs.map poe_agg_of) / p| > 1/10) ∧
    deviation_warning (pmfs.map poe_agg_of) none = false ∧
    ∀ pmf ∈ pmfs, poe_agg_of pmf = 1 - (pmf.map (fun x => 1 - x)).prod := by
  refine ⟨?_, rfl, fun pmf _ => rfl⟩
  rw [deviation_warning, if_neg hp]
  exact decide_eq_true_iff

/-- Witness for C8: a single all-ones PMF and requested probability `1/2`
give `poe_agg = 1` and relative deviation `|1 - 2| = 1 > 1/10`, so the
warning fires. -/
theorem poe_agg_deviation_warning_witness :
    deviation_warning ([[1]].map poe_agg_of) (some (1/2)) = true ∧
    deviation_warning ([[1]].map poe_agg_of) none = false := by
  have h := poe_agg_deviation_warning [[(1:ℚ)]] (1/2) (by norm_num)
  refine ⟨h.1.mpr ?_, h.2.1⟩
  norm_num [listMean, poe_agg_of]

end Disagg
